import Mathlib

/-!
Verification of the Batch dataset operator
(`tensorflow/core/kernels/data/batch_dataset_op.cc`).

The operator groups consecutive elements pulled from an upstream iterator
into batches of `batch_size` elements, stacking the per-slot tensors of the
accumulated elements into one output tensor per slot.  We embed the
descriptor (`Dataset`), the iterator state machine (`getNext`), the batch
assembler (sequential and parallel copy modes) and the checkpoint codec,
and prove the specified properties about them.
-/

set_option maxHeartbeats 1000000

namespace BatchDataset

/-- A fully known tensor shape (`TensorShape`): the list of dimension sizes. -/
abbrev Shape := List Nat

/-- A tensor: its shape together with its flattened contents.  The dtype is
irrelevant to the batching logic and is omitted. -/
structure Tensor where
  shape : Shape
  data : List Int
  deriving DecidableEq

/-- One upstream element: an ordered tuple of per-slot tensors
(`std::vector<Tensor>` in the source). -/
abbrev Element := List Tensor

/-- Non-OK statuses produced by the operator or propagated from upstream. -/
inductive Status where
  | invalidArgument (msg : String)
  | resourceExhausted (msg : String)
  | upstreamFailure (code : Nat)
  deriving DecidableEq

/-- One pull from the upstream iterator either yields an element or fails
with a propagated status.  End of sequence is modelled by running out of
items. -/
inductive UpItem where
  | elem (e : Element)
  | fail (s : Status)
  deriving DecidableEq

/-- The state of the upstream iterator: the items its future pulls
will produce, in order. -/
abbrev Upstream := List UpItem

/-- An upstream consisting only of successfully produced elements. -/
def pureUp (es : List Element) : Upstream := es.map UpItem.elem

/-- The iterator state (`Iterator` private members): the optional upstream
iterator handle `input_impl_`; `none` is the permanently exhausted state. -/
structure IterState where
  input_impl : Option Upstream
  deriving DecidableEq

/-- `kInfiniteCardinality` sentinel. -/
def kInfiniteCardinality : Int := -1

/-- `kUnknownCardinality` sentinel. -/
def kUnknownCardinality : Int := -2

/-- The upstream dataset (`DatasetBase`), as seen by the descriptor:
its cardinality, output dtypes and output partial shapes
(dimensions of value `-1` are unknown). -/
structure DatasetBase where
  cardinality : Int
  out_dtypes : List Nat
  out_shapes : List (List Int)
  deriving DecidableEq

/-- The batch descriptor (`BatchDatasetOp::Dataset`): batch size,
drop-remainder and parallel-copy policies, and the upstream reference. -/
structure Dataset where
  batch_size : Int
  drop_remainder : Bool
  parallel_copy : Bool
  input : DatasetBase
  deriving DecidableEq

/-- `PartialTensorShape::Concatenate`: dimension-list concatenation
(a dimension of `-1` is unknown). -/
def concatenateShape (a b : List Int) : List Int := a ++ b

/-- The derived output shapes, computed in the `Dataset` constructor
(lines 58-68): each upstream slot shape prefixed with `batch_size` when
`drop_remainder_` holds and with the unknown dimension `-1` otherwise. -/
def Dataset.output_shapes (d : Dataset) : List (List Int) :=
  d.input.out_shapes.map (fun input_shape =>
    if d.drop_remainder then concatenateShape [d.batch_size] input_shape
    else concatenateShape [-1] input_shape)

/-- `Dataset::output_dtypes` (lines 81-83): the upstream dtypes unchanged. -/
def Dataset.output_dtypes (d : Dataset) : List Nat :=
  d.input.out_dtypes

/-- `Dataset::Cardinality` (lines 96-102).  `int64` division and remainder
truncate toward zero, hence `Int.tdiv` / `Int.tmod`. -/
def Dataset.Cardinality (d : Dataset) : Int :=
  let n := d.input.cardinality
  if n = kInfiniteCardinality ∨ n = kUnknownCardinality then n
  else n.tdiv d.batch_size + (if n.tmod d.batch_size = 0 ∨ d.drop_remainder then 0 else 1)

/-- The element-accumulation loop of `GetNextInternal` (lines 146-155):
pull up to `fuel` elements from the upstream, appending each to the
accumulator; on upstream end of sequence the handle is reset (`none`), on an
upstream error the error propagates (`TF_RETURN_IF_ERROR`) with the handle
still present.  Returns the new handle together with either the propagated
error or the accumulated elements and the `end_of_sequence` flag. -/
def pullLoop : Nat → Upstream → List Element → Option Upstream × Except Status (List Element × Bool)
  | 0, up, acc => (some up, .ok (acc, false))
  | _ + 1, [], acc => (none, .ok (acc, true))
  | _ + 1, .fail s :: rest, _ => (some rest, .error s)
  | fuel + 1, .elem e :: rest, acc => pullLoop fuel rest (acc ++ [e])

/-- `batch_elements[i][component_index]` access, with out-of-range access
yielding a default empty tensor. -/
def elemAt (e : Element) (c : Nat) : Tensor := e.getD c ⟨[], []⟩

/-- `TensorShape::DebugString`, as used in the mismatch error message. -/
def shapeDebugString (s : Shape) : String :=
  "[" ++ String.intercalate (",") (s.map toString) ++ "]"

/-- The `InvalidArgument` message of lines 211-217, reporting the component
index, the first element's shape, the offending element index and the
offending shape. -/
def mismatchMsg (c : Nat) (fs : Shape) (i : Nat) (si : Shape) : String :=
  "Cannot batch tensors with different shapes in component " ++ toString c ++
  ". First element had shape " ++ shapeDebugString fs ++ " and element " ++
  toString i ++ " had shape " ++ shapeDebugString si ++ "."

/-- The `ResourceExhausted` message of lines 191-193. -/
def allocMsg (c : Nat) : String :=
  "Failed to allocate memory for the batch of component " ++ toString c

/-- The sequential-mode per-component loop (lines 208-233 with
`parallel_copy_` false): for each element index in order, validate its shape
for this component against the first element's shape, short-circuiting with
`InvalidArgument` on a mismatch, and otherwise copy its data into slice `i`
of the output buffer. -/
def seqLoop (c : Nat) (fs : Shape) :
    List Element → Nat → List (List Int) → Except Status (List (List Int))
  | [], _, buf => .ok buf
  | e :: rest, i, buf =>
    if (elemAt e c).shape = fs then
      seqLoop c fs rest (i + 1) (buf.set i (elemAt e c).data)
    else
      .error (.invalidArgument (mismatchMsg c fs i (elemAt e c).shape))

/-- The parallel-mode per-component loop (lines 208-233 with
`parallel_copy_` true), instrumented with the number of copy tasks handed to
the runner and whether `counter.Wait()` (line 234) was reached: each index
whose shape validates schedules one copy task; a mismatch returns
`InvalidArgument` immediately from inside the loop, without waiting on the
blocking counter. -/
def parLoop (c : Nat) (fs : Shape) :
    List Element → Nat → Nat → Except Status Unit × Nat × Bool
  | [], _, scheduled => (.ok (), scheduled, true)
  | e :: rest, i, scheduled =>
    if (elemAt e c).shape = fs then
      parLoop c fs rest (i + 1) (scheduled + 1)
    else
      (.error (.invalidArgument (mismatchMsg c fs i (elemAt e c).shape)), scheduled, false)

/-- Execution of the scheduled copy tasks by the worker pool: each task `i`
writes element `i`'s data for component `c` into slice `i` of the output
buffer; `order` is the order in which the pool happens to run the tasks.
By `counter.Wait()`, all scheduled tasks have run before assembly
proceeds, so `order` contains every scheduled index. -/
def execCopies (c : Nat) (elems : List Element) (order : List Nat)
    (buf : List (List Int)) : List (List Int) :=
  order.foldl (fun b i => b.set i (elemAt (elems.getD i []) c).data) buf

/-- The execution context: the allocator success predicate for output
allocations, and for the parallel mode the order in which the worker pool
runs the copy tasks of a component with a given element count. -/
structure Ctx where
  alloc_ok : Shape → Bool
  sched : Nat → Nat → List Nat

/-- Assembly of one output component (lines 179-236 body for a single
`component_index`): capture the first element's shape, allocate the output
container of shape `num_batch_elements :: first_element_shape`
(`ResourceExhausted` on failure), then run the validation/copy loop in the
selected mode. -/
def assembleComponent (ctx : Ctx) (pc : Bool) (batch_elements : List Element)
    (c : Nat) : Except Status Tensor :=
  if ctx.alloc_ok
      (batch_elements.length :: (elemAt (batch_elements.headD []) c).shape) = false then
    .error (.resourceExhausted (allocMsg c))
  else if pc then
    match parLoop c (elemAt (batch_elements.headD []) c).shape batch_elements 0 0 with
    | (.error s, _, _) => .error s
    | (.ok _, _, _) =>
      .ok ⟨batch_elements.length :: (elemAt (batch_elements.headD []) c).shape,
        (execCopies c batch_elements (ctx.sched c batch_elements.length)
          (List.replicate batch_elements.length [])).flatten⟩
  else
    match seqLoop c (elemAt (batch_elements.headD []) c).shape batch_elements 0
        (List.replicate batch_elements.length []) with
    | .error s => .error s
    | .ok buf =>
      .ok ⟨batch_elements.length :: (elemAt (batch_elements.headD []) c).shape,
        buf.flatten⟩

/-- The loop over tuple components (lines 179-236): assemble components
`c, c+1, ...` (`fuel` many), collecting the output tensors in order and
propagating the first error. -/
def assembleFrom (ctx : Ctx) (pc : Bool) (batch_elements : List Element) :
    Nat → Nat → Except Status (List Tensor)
  | _, 0 => .ok []
  | c, fuel + 1 =>
    match assembleComponent ctx pc batch_elements c with
    | .error s => .error s
    | .ok t =>
      match assembleFrom ctx pc batch_elements (c + 1) fuel with
      | .error s => .error s
      | .ok ts => .ok (t :: ts)

/-- The batch assembler: one output tensor per tuple component, where the
component count is the first element's arity (line 177). -/
def assemble (ctx : Ctx) (pc : Bool) (batch_elements : List Element) :
    Except Status (List Tensor) :=
  assembleFrom ctx pc batch_elements 0 (batch_elements.headD []).length

/-- `Iterator::GetNextInternal` (lines 132-239): if the handle is absent,
report end of sequence; otherwise pull up to `batch_size` elements, report
end of sequence on an empty accumulation, discard an undersized batch when
`drop_remainder_` holds, and otherwise hand the accumulated elements to the
assembler.  Returns the updated iterator state and either an error or the
output tensors with the `end_of_sequence` flag. -/
def getNext (ctx : Ctx) (d : Dataset) (s : IterState) :
    IterState × Except Status (List Tensor × Bool) :=
  match s.input_impl with
  | none => (s, .ok ([], true))
  | some up =>
    match pullLoop d.batch_size.toNat up [] with
    | (impl, .error st) => (⟨impl⟩, .error st)
    | (impl, .ok (batch_elements, eos)) =>
      if batch_elements = [] then (⟨impl⟩, .ok ([], eos))
      else if d.drop_remainder ∧ batch_elements.length < d.batch_size.toNat then
        (⟨impl⟩, .ok ([], true))
      else
        match assemble ctx d.parallel_copy batch_elements with
        | .error st => (⟨impl⟩, .error st)
        | .ok ts => (⟨impl⟩, .ok (ts, false))

/-- The iterator state before the `j`-th `getNext` call, starting from
`s0`, when call `j` runs under context `ctxs j`. -/
def stateAt (ctxs : Nat → Ctx) (d : Dataset) (s0 : IterState) : Nat → IterState
  | 0 => s0
  | j + 1 => (getNext (ctxs j) d (stateAt ctxs d s0 j)).1

/-- The result of the `j`-th `getNext` call, starting from `s0`. -/
def outAt (ctxs : Nat → Ctx) (d : Dataset) (s0 : IterState) (j : Nat) :
    Except Status (List Tensor × Bool) :=
  (getNext (ctxs j) d (stateAt ctxs d s0 j)).2

/-- A saved iterator checkpoint: either the `input_impl_empty` sentinel
written when the handle is absent, or the upstream iterator's own
checkpoint written by `SaveInput` (its opaque content is the upstream
state). -/
inductive Checkpoint where
  | inputImplEmpty
  | inputCheckpoint (up : Upstream)
  deriving DecidableEq

/-- `Iterator::SaveInternal` (lines 247-255): write the exhausted sentinel
when the handle is absent, else delegate to the upstream iterator's save. -/
def saveInternal (s : IterState) : Checkpoint :=
  match s.input_impl with
  | none => .inputImplEmpty
  | some up => .inputCheckpoint up

/-- `Iterator::RestoreInternal` (lines 257-266): if the sentinel is present
set the handle absent, else restore the upstream iterator from its own
checkpoint. -/
def restoreInternal (c : Checkpoint) : IterState :=
  match c with
  | .inputImplEmpty => ⟨none⟩
  | .inputCheckpoint up => ⟨some up⟩

/-- C1: for a finite known upstream cardinality `n` and batch size `b > 0`,
`Cardinality` returns `⌊n/b⌋`, plus one more when a remainder exists and
`drop_remainder` is false; the infinite and unknown sentinels propagate
unchanged. -/
theorem cardinality_floor_div (d : Dataset) (n b : Nat)
    (hb : d.batch_size = (b : Int)) (hb0 : 0 < b) :
    (d.input.cardinality = (n : Int) →
      d.Cardinality = ((n / b : Nat) : Int) +
        (if n % b ≠ 0 ∧ d.drop_remainder = false then 1 else 0)) ∧
    (d.input.cardinality = kInfiniteCardinality →
      d.Cardinality = kInfiniteCardinality) ∧
    (d.input.cardinality = kUnknownCardinality →
      d.Cardinality = kUnknownCardinality) := by
  refine ⟨?_, ?_, ?_⟩
  · intro hn
    unfold Dataset.Cardinality
    rw [hn, hb]
    rw [if_neg (by simp only [kInfiniteCardinality, kUnknownCardinality]; omega)]
    have hdiv : (n : Int).tdiv (b : Int) = ((n / b : Nat) : Int) := rfl
    have hmod : (n : Int).tmod (b : Int) = ((n % b : Nat) : Int) := rfl
    rw [hdiv, hmod]
    by_cases hm : n % b = 0
    · rw [if_pos (Or.inl (by exact_mod_cast congrArg (fun k : Nat => (k : Int)) hm)),
        if_neg (by simp [hm])]
    · cases hdr : d.drop_remainder
      · rw [if_neg, if_pos ⟨hm, rfl⟩]
        intro hor
        rcases hor with h0 | htrue
        · exact hm (by exact_mod_cast h0)
        · exact Bool.false_ne_true htrue
      · rw [if_pos (Or.inr rfl), if_neg (by simp)]
  · intro hn
    unfold Dataset.Cardinality
    rw [hn]
    simp
  · intro hn
    unfold Dataset.Cardinality
    rw [hn]
    simp [kInfiniteCardinality, kUnknownCardinality]

/-- An upstream stub with cardinality 10, used to instantiate the
cardinality theorem. -/
def inputTen : DatasetBase := ⟨(10 : Int), [], []⟩

/-- Batch size 3 over `inputTen`, keeping the remainder. -/
def dsTenThreeKeep : Dataset := ⟨3, false, false, inputTen⟩

/-- Batch size 3 over `inputTen`, dropping the remainder. -/
def dsTenThreeDrop : Dataset := ⟨3, true, false, inputTen⟩

/-- Witness for C1: `cardinality(n=10, b=3)` is 4 without and 3 with
`drop_remainder`. -/
theorem cardinality_floor_div_witness :
    dsTenThreeKeep.Cardinality = 4 ∧ dsTenThreeDrop.Cardinality = 3 := by
  constructor
  · have h := (cardinality_floor_div dsTenThreeKeep 10 3 rfl (by decide)).1 rfl
    rw [h]; decide
  · have h := (cardinality_floor_div dsTenThreeDrop 10 3 rfl (by decide)).1 rfl
    rw [h]; decide

/-- Setting the element right after a prefix `A` rewrites exactly that
position. -/
lemma set_append_cons {α : Type} (A : List α) (x v : α) (t : List α) :
    (A ++ x :: t).set A.length v = A ++ v :: t := by
  induction A with
  | nil => rfl
  | cons a A ih => simpa using ih

/-- `getD` after `set`. -/
lemma getD_set {α : Type} (l : List α) :
    ∀ (i j : Nat) (v dflt : α),
      (l.set i v).getD j dflt =
        if i = j ∧ j < l.length then v else l.getD j dflt := by
  induction l with
  | nil => intro i j v dflt; simp
  | cons a t ih =>
    intro i j v dflt
    cases i with
    | zero =>
      cases j with
      | zero => simp
      | succ j => simp
    | succ i =>
      cases j with
      | zero => simp
      | succ j =>
        simp only [List.set_cons_succ, List.getD_cons_succ, ih i j v dflt,
          List.length_cons]
        by_cases hij : i = j
        · subst hij
          by_cases hlt : i < t.length <;> simp [hlt]
        · simp [hij]

/-- Two lists agreeing in length and in `getD` at every position agree. -/
lemma list_ext_getD {α : Type} (dflt : α) :
    ∀ (l₁ l₂ : List α), l₁.length = l₂.length →
      (∀ j, j < l₁.length → l₁.getD j dflt = l₂.getD j dflt) → l₁ = l₂ := by
  intro l₁
  induction l₁ with
  | nil =>
    intro l₂ h _
    cases l₂ with
    | nil => rfl
    | cons b u => simp at h
  | cons a t ih =>
    intro l₂ h hj
    cases l₂ with
    | nil => simp at h
    | cons b u =>
      have h0 : a = b := by simpa using hj 0 (by simp)
      have ht : t = u := by
        refine ih u (by simpa using h) (fun j hjlt => ?_)
        simpa using hj (j + 1) (by simpa using Nat.succ_lt_succ hjlt)
      rw [h0, ht]

/-- `getD` through `map`, in range. -/
lemma getD_map_lt {α β : Type} (f : α → β) (d₁ : α) (d₂ : β) :
    ∀ (l : List α) (j : Nat), j < l.length →
      (l.map f).getD j d₂ = f (l.getD j d₁) := by
  intro l
  induction l with
  | nil => intro j h; simp at h
  | cons a t ih =>
    intro j h
    cases j with
    | zero => simp
    | succ j => simpa using ih j (by simpa using h)

/-- The default head of a nonempty list is a member. -/
lemma headD_mem {α : Type} (l : List α) (d : α) (h : l ≠ []) : l.headD d ∈ l := by
  cases l with
  | nil => exact absurd rfl h
  | cons a t => simp

/-- `take` of a positive count preserves the default head. -/
lemma take_headD {α : Type} (l : List α) (d : α) (b : Nat) (hb : 0 < b) :
    (l.take b).headD d = l.headD d := by
  cases b with
  | zero => omega
  | succ b => cases l <;> simp

/-- Pulling with enough upstream elements available accumulates exactly
`b` of them, leaves the rest upstream, and does not signal end of
sequence. -/
lemma pullLoop_full :
    ∀ (b : Nat) (es acc : List Element), b ≤ es.length →
      pullLoop b (pureUp es) acc =
        (some (pureUp (es.drop b)), .ok (acc ++ es.take b, false)) := by
  intro b
  induction b with
  | zero => intro es acc h; simp [pullLoop, pureUp]
  | succ b ih =>
    intro es acc h
    cases es with
    | nil => simp at h
    | cons e rest =>
      show pullLoop (b + 1) (UpItem.elem e :: pureUp rest) acc = _
      simp only [pullLoop]
      rw [ih rest (acc ++ [e]) (by simpa using h)]
      simp

/-- Pulling from a short pure upstream exhausts it: the handle is reset,
all elements are accumulated and end of sequence is signaled. -/
lemma pullLoop_short :
    ∀ (b : Nat) (es acc : List Element), es.length < b →
      pullLoop b (pureUp es) acc = (none, .ok (acc ++ es, true)) := by
  intro b
  induction b with
  | zero => intro es acc h; exact absurd h (Nat.not_lt_zero _)
  | succ b ih =>
    intro es acc h
    cases es with
    | nil => simp [pullLoop, pureUp]
    | cons e rest =>
      show pullLoop (b + 1) (UpItem.elem e :: pureUp rest) acc = _
      simp only [pullLoop]
      rw [ih rest (acc ++ [e]) (by simpa using h)]
      simp

/-- The handle after the pull loop on a pure upstream: advanced past the
pulled elements, or absent when the upstream ran out. -/
lemma pull_pure_fst (fuel : Nat) (es acc : List Element) :
    (pullLoop fuel (pureUp es) acc).1 =
      if fuel ≤ es.length then some (pureUp (es.drop fuel)) else none := by
  by_cases h : fuel ≤ es.length
  · rw [pullLoop_full fuel es acc h]; simp [h]
  · rw [pullLoop_short fuel es acc (by omega)]; simp [h]

/-- The pull loop resets the handle exactly when the whole upstream is
shorter than the request and consists only of successful elements. -/
lemma pull_impl_none_iff :
    ∀ (fuel : Nat) (up : Upstream) (acc : List Element),
      (pullLoop fuel up acc).1 = none ↔
        (up.length < fuel ∧ ∀ x ∈ up, ∃ el, x = UpItem.elem el) := by
  intro fuel
  induction fuel with
  | zero => intro up acc; simp [pullLoop]
  | succ fuel ih =>
    intro up acc
    cases up with
    | nil => simp [pullLoop]
    | cons x rest =>
      cases x with
      | elem e =>
        simp only [pullLoop]
        rw [ih rest (acc ++ [e])]
        constructor
        · rintro ⟨h1, h2⟩
          refine ⟨by simpa using Nat.succ_lt_succ h1, ?_⟩
          intro y hy
          rcases List.mem_cons.mp hy with rfl | hy'
          · exact ⟨e, rfl⟩
          · exact h2 y hy'
        · rintro ⟨h1, h2⟩
          exact ⟨by simpa using h1, fun y hy => h2 y (List.mem_cons_of_mem _ hy)⟩
      | fail s =>
        simp only [pullLoop]
        constructor
        · intro h; simp at h
        · rintro ⟨-, hall⟩
          obtain ⟨el, hel⟩ := hall (.fail s) (List.mem_cons_self _ _)
          simp at hel

/-- If the pull loop returned with end of sequence signaled, the handle
was reset. -/
lemma pull_ok_true_none :
    ∀ (fuel : Nat) (up : Upstream) (acc bt : List Element),
      (pullLoop fuel up acc).2 = .ok (bt, true) →
      (pullLoop fuel up acc).1 = none := by
  intro fuel
  induction fuel with
  | zero => intro up acc bt h; simp [pullLoop] at h
  | succ fuel ih =>
    intro up acc bt h
    cases up with
    | nil => rfl
    | cons x rest =>
      cases x with
      | elem e => exact ih rest (acc ++ [e]) bt h
      | fail s => simp [pullLoop] at h

/-- If the pull loop accumulated fewer elements than it had fuel for, the
upstream ran out and the handle was reset. -/
lemma pull_ok_short_none :
    ∀ (fuel : Nat) (up : Upstream) (acc bt : List Element) (eosv : Bool),
      (pullLoop fuel up acc).2 = .ok (bt, eosv) →
      bt.length < acc.length + fuel →
      (pullLoop fuel up acc).1 = none := by
  intro fuel
  induction fuel with
  | zero =>
    intro up acc bt eosv h hlen
    simp only [pullLoop] at h
    injection h with h3
    injection h3 with h4 h5
    rw [← h4] at hlen
    omega
  | succ fuel ih =>
    intro up acc bt eosv h hlen
    cases up with
    | nil => rfl
    | cons x rest =>
      cases x with
      | elem e =>
        refine ih rest (acc ++ [e]) bt eosv h ?_
        simp only [List.length_append, List.length_singleton]
        omega
      | fail s => simp [pullLoop] at h

/-- On a successful sequential component loop every slice is written: with
the buffer holding a prefix `A` of already-written slices, the result is
`A` followed by the element data in order, provided every shape
validates. -/
lemma seqLoop_ok (c : Nat) (fs : Shape) :
    ∀ (elems : List Element) (A : List (List Int)),
      (∀ e ∈ elems, (elemAt e c).shape = fs) →
      seqLoop c fs elems A.length (A ++ List.replicate elems.length []) =
        .ok (A ++ elems.map (fun e => (elemAt e c).data)) := by
  intro elems
  induction elems with
  | nil => intro A h; simp [seqLoop]
  | cons e rest ih =>
    intro A h
    have he : (elemAt e c).shape = fs := h e (List.mem_cons_self _ _)
    simp only [List.length_cons, List.replicate, seqLoop, if_pos he]
    rw [set_append_cons]
    have := ih (A ++ [(elemAt e c).data])
      (fun e' he' => h e' (List.mem_cons_of_mem _ he'))
    simp only [List.length_append, List.length_singleton, List.append_assoc,
      List.singleton_append] at this ⊢
    exact this

/-- A successful sequential component loop implies every shape
validated. -/
lemma seqLoop_ok_all (c : Nat) (fs : Shape) :
    ∀ (elems : List Element) (i : Nat) (buf buf' : List (List Int)),
      seqLoop c fs elems i buf = .ok buf' →
      ∀ e ∈ elems, (elemAt e c).shape = fs := by
  intro elems
  induction elems with
  | nil => intro i buf buf' _ e he; simp at he
  | cons e0 rest ih =>
    intro i buf buf' h e he
    by_cases hs : (elemAt e0 c).shape = fs
    · rw [seqLoop, if_pos hs] at h
      rcases List.mem_cons.mp he with rfl | he'
      · exact hs
      · exact ih (i + 1) _ buf' h e he'
    · rw [seqLoop, if_neg hs] at h
      exact absurd h (by simp)

/-- The sequential component loop stops at the first offending index with
the corresponding mismatch error. -/
lemma seqLoop_first_mismatch (c : Nat) (fs : Shape) :
    ∀ (elems : List Element) (t i : Nat) (buf : List (List Int)),
      t < elems.length →
      (∀ k, k < t → (elemAt (elems.getD k []) c).shape = fs) →
      (elemAt (elems.getD t []) c).shape ≠ fs →
      seqLoop c fs elems i buf =
        .error (.invalidArgument
          (mismatchMsg c fs (i + t) ((elemAt (elems.getD t []) c).shape))) := by
  intro elems
  induction elems with
  | nil => intro t i buf ht _ _; simp at ht
  | cons e0 rest ih =>
    intro t i buf ht hfirst hmis
    cases t with
    | zero =>
      simp only [List.getD_cons_zero] at hmis ⊢
      rw [seqLoop, if_neg hmis, Nat.add_zero]
    | succ t =>
      have he0 : (elemAt e0 c).shape = fs := by
        simpa using hfirst 0 (Nat.succ_pos t)
      rw [seqLoop, if_pos he0]
      have := ih t (i + 1) (buf.set i (elemAt e0 c).data)
        (by simpa using ht)
        (fun k hk => by simpa using hfirst (k + 1) (Nat.succ_lt_succ hk))
        (by simpa using hmis)
      simpa [Nat.add_assoc, Nat.add_comm 1 t] using this

/-- When every shape validates, the parallel loop schedules one copy task
per element and reaches the blocking-counter wait. -/
lemma parLoop_ok (c : Nat) (fs : Shape) :
    ∀ (elems : List Element) (i scheduled : Nat),
      (∀ e ∈ elems, (elemAt e c).shape = fs) →
      parLoop c fs elems i scheduled = (.ok (), scheduled + elems.length, true) := by
  intro elems
  induction elems with
  | nil => intro i scheduled _; simp [parLoop]
  | cons e rest ih =>
    intro i scheduled h
    have he : (elemAt e c).shape = fs := h e (List.mem_cons_self _ _)
    rw [parLoop, if_pos he, ih (i + 1) (scheduled + 1)
      (fun e' he' => h e' (List.mem_cons_of_mem _ he'))]
    simp only [List.length_cons]
    congr 2
    omega

/-- The error component of the parallel loop agrees with that of the
sequential loop (both walk indices in order and test the same
condition). -/
lemma parLoop_fst (c : Nat) (fs : Shape) :
    ∀ (elems : List Element) (i scheduled : Nat) (buf : List (List Int)),
      (parLoop c fs elems i scheduled).1 =
        (match seqLoop c fs elems i buf with
         | .ok _ => Except.ok ()
         | .error e => Except.error e) := by
  intro elems
  induction elems with
  | nil => intro i scheduled buf; simp [parLoop, seqLoop]
  | cons e rest ih =>
    intro i scheduled buf
    by_cases hs : (elemAt e c).shape = fs
    · rw [parLoop, if_pos hs, seqLoop, if_pos hs]
      exact ih (i + 1) (scheduled + 1) _
    · rw [parLoop, if_neg hs, seqLoop, if_neg hs]

/-- Running the copy tasks preserves the buffer length. -/
lemma execCopies_length (c : Nat) (elems : List Element) :
    ∀ (order : List Nat) (buf : List (List Int)),
      (execCopies c elems order buf).length = buf.length := by
  intro order
  induction order with
  | nil => intro buf; rfl
  | cons k rest ih =>
    intro buf
    show (execCopies c elems rest (buf.set k _)).length = _
    rw [ih]
    exact List.length_set ..

/-- The buffer after running the copy tasks: positions that some task
wrote hold that element's data; the rest are untouched.  (Two tasks never
target the same position with different data, so the run order is
irrelevant.) -/
lemma execCopies_getD (c : Nat) (elems : List Element) :
    ∀ (order : List Nat) (buf : List (List Int)) (j : Nat),
      (execCopies c elems order buf).getD j [] =
        if j ∈ order ∧ j < buf.length then (elemAt (elems.getD j []) c).data
        else buf.getD j [] := by
  intro order
  induction order with
  | nil => intro buf j; simp [execCopies]
  | cons k rest ih =>
    intro buf j
    show (execCopies c elems rest
        (buf.set k (elemAt (elems.getD k []) c).data)).getD j [] = _
    rw [ih (buf.set k (elemAt (elems.getD k []) c).data) j]
    rw [List.length_set, getD_set]
    by_cases hjr : j ∈ rest
    · by_cases hjl : j < buf.length <;> simp [hjr, hjl]
    · by_cases hjk : k = j
      · subst hjk
        by_cases hjl : k < buf.length <;> simp [hjr, hjl]
      · have : ¬(j ∈ k :: rest) := by
          intro hmem
          rcases List.mem_cons.mp hmem with rfl | h'
          · exact hjk rfl
          · exact hjr h'
        simp [hjr, hjk, this]

/-- When the run order covers every index (as `counter.Wait()`
guarantees), the buffer after the parallel copies is exactly the element
data in index order. -/
lemma execCopies_perm (c : Nat) (elems : List Element) (order : List Nat)
    (h : order.Perm (List.range elems.length)) :
    execCopies c elems order (List.replicate elems.length []) =
      elems.map (fun e => (elemAt e c).data) := by
  have hmem : ∀ j, j ∈ order ↔ j < elems.length := by
    intro j
    rw [h.mem_iff, List.mem_range]
  refine list_ext_getD [] _ _ ?_ ?_
  · rw [execCopies_length, List.length_replicate, List.length_map]
  · intro j hj
    rw [execCopies_length, List.length_replicate] at hj
    rw [execCopies_getD, List.length_replicate,
      if_pos ⟨(hmem j).mpr hj, hj⟩, getD_map_lt _ [] [] elems j hj]

/-- The expected stacked batch: one output tensor per slot `c < m`, of
shape `elems.length :: sh c`, containing the concatenated per-slot data of
the elements in order. -/
def stackedBatch (sh : Nat → Shape) (m : Nat) (elems : List Element) : List Tensor :=
  (List.range m).map (fun c =>
    Tensor.mk (elems.length :: sh c) ((elems.map (fun e => (elemAt e c).data)).flatten))

/-- A component whose shapes all validate assembles, in either mode, to
the stacked tensor of the element data in order. -/
lemma assembleComponent_ok (ctx : Ctx) (pc : Bool) (elems : List Element) (c : Nat)
    (hsched : (ctx.sched c elems.length).Perm (List.range elems.length))
    (halloc : ctx.alloc_ok (elems.length :: (elemAt (elems.headD []) c).shape) = true)
    (hmatch : ∀ e ∈ elems, (elemAt e c).shape = (elemAt (elems.headD []) c).shape) :
    assembleComponent ctx pc elems c =
      .ok ⟨elems.length :: (elemAt (elems.headD []) c).shape,
        (elems.map (fun e => (elemAt e c).data)).flatten⟩ := by
  unfold assembleComponent
  rw [halloc]
  simp only [Bool.true_eq_false, if_false]
  cases pc with
  | true =>
    simp only [if_true]
    rw [parLoop_ok c _ elems 0 0 hmatch]
    rw [execCopies_perm c elems _ hsched]
  | false =>
    simp only [Bool.false_eq_true, if_false]
    have := seqLoop_ok c (elemAt (elems.headD []) c).shape elems [] hmatch
    simp only [List.length_nil, List.nil_append] at this
    rw [this]

/-- A component whose shapes all validate assembles successfully (without
any assumption on the worker-pool run order). -/
lemma assembleComponent_ok_exists (ctx : Ctx) (pc : Bool) (elems : List Element) (c : Nat)
    (halloc : ctx.alloc_ok (elems.length :: (elemAt (elems.headD []) c).shape) = true)
    (hmatch : ∀ e ∈ elems, (elemAt e c).shape = (elemAt (elems.headD []) c).shape) :
    ∃ t, assembleComponent ctx pc elems c = .ok t := by
  unfold assembleComponent
  rw [halloc]
  simp only [Bool.true_eq_false, if_false]
  cases pc with
  | true =>
    simp only [if_true]
    rw [parLoop_ok c _ elems 0 0 hmatch]
    exact ⟨_, rfl⟩
  | false =>
    simp only [Bool.false_eq_true, if_false]
    have := seqLoop_ok c (elemAt (elems.headD []) c).shape elems [] hmatch
    simp only [List.length_nil, List.nil_append] at this
    rw [this]
    exact ⟨_, rfl⟩

/-- A component with a first offending index `t` fails, in either mode,
with the `InvalidArgument` message naming the component, the reference
shape, the index `t` and the offending shape. -/
lemma assembleComponent_mismatch (ctx : Ctx) (pc : Bool) (elems : List Element)
    (c t : Nat)
    (halloc : ctx.alloc_ok (elems.length :: (elemAt (elems.headD []) c).shape) = true)
    (ht : t < elems.length)
    (hfirst : ∀ k, k < t →
      (elemAt (elems.getD k []) c).shape = (elemAt (elems.headD []) c).shape)
    (hmis : (elemAt (elems.getD t []) c).shape ≠ (elemAt (elems.headD []) c).shape) :
    assembleComponent ctx pc elems c =
      .error (.invalidArgument (mismatchMsg c (elemAt (elems.headD []) c).shape t
        ((elemAt (elems.getD t []) c).shape))) := by
  unfold assembleComponent
  rw [halloc]
  simp only [Bool.true_eq_false, if_false]
  have hseq := seqLoop_first_mismatch c (elemAt (elems.headD []) c).shape elems t 0
    (List.replicate elems.length []) ht hfirst hmis
  simp only [Nat.zero_add] at hseq
  cases pc with
  | true =>
    simp only [if_true]
    have hp : (parLoop c (elemAt (elems.headD []) c).shape elems 0 0).1 =
        .error (.invalidArgument (mismatchMsg c (elemAt (elems.headD []) c).shape t
          ((elemAt (elems.getD t []) c).shape))) := by
      rw [parLoop_fst c _ elems 0 0 (List.replicate elems.length []), hseq]
    rcases hpar : parLoop c (elemAt (elems.headD []) c).shape elems 0 0 with ⟨pf, ps, pw⟩
    rw [hpar] at hp
    simp only at hp
    rw [hp]
  | false =>
    simp only [Bool.false_eq_true, if_false]
    rw [hseq]

/-- When every component from `c0` on (for `k` components) validates and
allocates, the component loop returns the stacked tensors in order. -/
lemma assembleFrom_stack (ctx : Ctx) (pc : Bool) (elems : List Element) (sh : Nat → Shape)
    (hne : elems ≠ [])
    (hsched : ∀ c, (ctx.sched c elems.length).Perm (List.range elems.length))
    (halloc : ∀ sp, ctx.alloc_ok sp = true)
    (hmatch : ∀ e ∈ elems, ∀ c, (elemAt e c).shape = sh c) :
    ∀ (k c0 : Nat),
      assembleFrom ctx pc elems c0 k =
        .ok ((List.range' c0 k).map (fun c =>
          Tensor.mk (elems.length :: sh c)
            ((elems.map (fun e => (elemAt e c).data)).flatten))) := by
  have hhead : ∀ c, (elemAt (elems.headD []) c).shape = sh c :=
    fun c => hmatch (elems.headD []) (headD_mem elems [] hne) c
  intro k
  induction k with
  | zero => intro c0; simp [assembleFrom]
  | succ k ih =>
    intro c0
    rw [assembleFrom]
    rw [assembleComponent_ok ctx pc elems c0 (hsched c0)
      (halloc _) (fun e he => by rw [hmatch e he c0, hhead c0])]
    rw [ih (c0 + 1)]
    rw [List.range'_succ]
    simp only [List.map_cons]
    rw [hhead c0]

/-- If the components before `c` succeed and component `c` fails, the
component loop fails with component `c`'s error. -/
lemma assembleFrom_err (ctx : Ctx) (pc : Bool) (elems : List Element) (e : Status) :
    ∀ (k c0 c : Nat), c0 ≤ c → c < c0 + k →
      (∀ c', c0 ≤ c' → c' < c → ∃ t, assembleComponent ctx pc elems c' = .ok t) →
      assembleComponent ctx pc elems c = .error e →
      assembleFrom ctx pc elems c0 k = .error e := by
  intro k
  induction k with
  | zero => intro c0 c h1 h2 _ _; omega
  | succ k ih =>
    intro c0 c h1 h2 hok herr
    rw [assembleFrom]
    by_cases hc : c0 = c
    · subst hc
      rw [herr]
    · obtain ⟨t, htok⟩ := hok c0 (le_refl c0) (by omega)
      rw [htok]
      rw [ih (c0 + 1) c (by omega) (by omega)
        (fun c' h1' h2' => hok c' (by omega) h2') herr]

/-- The full assembler on a uniformly shaped nonempty batch returns the
stacked batch. -/
lemma assemble_stack (ctx : Ctx) (pc : Bool) (elems : List Element) (sh : Nat → Shape)
    (m : Nat) (hne : elems ≠ [])
    (harity : ∀ e ∈ elems, List.length e = m)
    (hsched : ∀ c, (ctx.sched c elems.length).Perm (List.range elems.length))
    (halloc : ∀ sp, ctx.alloc_ok sp = true)
    (hmatch : ∀ e ∈ elems, ∀ c, (elemAt e c).shape = sh c) :
    assemble ctx pc elems = .ok (stackedBatch sh m elems) := by
  unfold assemble
  rw [harity (elems.headD []) (headD_mem elems [] hne)]
  rw [assembleFrom_stack ctx pc elems sh hne hsched halloc hmatch m 0]
  rw [stackedBatch, List.range_eq_range']

/-- `Int.toNat` undoes the coercion of a natural batch size. -/
lemma toNat_batch (d : Dataset) (b : Nat) (hbs : d.batch_size = (b : Int)) :
    d.batch_size.toNat = b := by
  rw [hbs]; exact Int.toNat_natCast b

/-- `getNext` on an absent handle: immediate end of sequence, state
unchanged. -/
lemma getNext_exhausted (ctx : Ctx) (d : Dataset) :
    getNext ctx d ⟨none⟩ = (⟨none⟩, .ok ([], true)) := rfl

/-- The state after any `getNext` on a present handle is the handle left
by the pull loop, whatever the outcome. -/
lemma getNext_fst (ctx : Ctx) (d : Dataset) (up : Upstream) :
    (getNext ctx d ⟨some up⟩).1 = ⟨(pullLoop d.batch_size.toNat up []).1⟩ := by
  unfold getNext
  dsimp only
  rcases hp : pullLoop d.batch_size.toNat up [] with ⟨impl, r⟩
  rcases r with st | ⟨bt, eos⟩
  · rfl
  · dsimp only
    by_cases hbt : bt = []
    · simp [hbt]
    · rw [if_neg hbt]
      by_cases hdc : d.drop_remainder ∧ bt.length < d.batch_size.toNat
      · rw [if_pos hdc]
      · rw [if_neg hdc]
        rcases h2 : assemble ctx d.parallel_copy bt with st | ts <;> rfl

/-- `getNext` with at least `batch_size` pure upstream elements available:
one full batch of the first `b` elements is emitted, the upstream advances
past them, and end of sequence is not signaled. -/
lemma getNext_full (ctx : Ctx) (d : Dataset) (b m : Nat) (sh : Nat → Shape)
    (es : List Element) (hb : 0 < b) (hbs : d.batch_size = (b : Int))
    (hlen : b ≤ es.length)
    (harity : ∀ e ∈ es, List.length e = m)
    (hsched : ∀ c n, (ctx.sched c n).Perm (List.range n))
    (halloc : ∀ sp, ctx.alloc_ok sp = true)
    (hmatch : ∀ e ∈ es, ∀ c, (elemAt e c).shape = sh c) :
    getNext ctx d ⟨some (pureUp es)⟩ =
      (⟨some (pureUp (es.drop b))⟩, .ok (stackedBatch sh m (es.take b), false)) := by
  unfold getNext
  dsimp only
  rw [toNat_batch d b hbs]
  rw [pullLoop_full b es [] hlen]
  simp only [List.nil_append]
  have htk : es.take b ≠ [] := by
    intro hnil
    have := congrArg List.length hnil
    simp only [List.length_take, List.length_nil] at this
    omega
  rw [if_neg htk]
  have hlen2 : (es.take b).length = b := by
    rw [List.length_take]; omega
  rw [if_neg (by rw [hlen2]; exact fun h => absurd h.2 (lt_irrefl b))]
  rw [assemble_stack ctx d.parallel_copy (es.take b) sh m htk
    (fun e he => harity e (List.take_subset b es he))
    (fun c => hsched c _) halloc
    (fun e he c => hmatch e (List.take_subset b es he) c)]

/-- `getNext` with a nonempty pure upstream shorter than `batch_size` and
`drop_remainder` false: the partial batch is emitted without an
end-of-sequence signal and the handle is reset. -/
lemma getNext_partialBatch (ctx : Ctx) (d : Dataset) (b m : Nat) (sh : Nat → Shape)
    (es : List Element) (hb : 0 < b) (hbs : d.batch_size = (b : Int))
    (hlen : es.length < b) (hne : es ≠ [])
    (hdrop : d.drop_remainder = false)
    (harity : ∀ e ∈ es, List.length e = m)
    (hsched : ∀ c n, (ctx.sched c n).Perm (List.range n))
    (halloc : ∀ sp, ctx.alloc_ok sp = true)
    (hmatch : ∀ e ∈ es, ∀ c, (elemAt e c).shape = sh c) :
    getNext ctx d ⟨some (pureUp es)⟩ = (⟨none⟩, .ok (stackedBatch sh m es, false)) := by
  unfold getNext
  dsimp only
  rw [toNat_batch d b hbs]
  rw [pullLoop_short b es [] hlen]
  simp only [List.nil_append]
  rw [if_neg hne]
  rw [if_neg (by rw [hdrop]; simp)]
  rw [assemble_stack ctx d.parallel_copy es sh m hne harity
    (fun c => hsched c _) halloc hmatch]

/-- `getNext` with a nonempty pure upstream shorter than `batch_size` and
`drop_remainder` true: the accumulated elements are discarded, end of
sequence is signaled and the handle is reset. -/
lemma getNext_dropUndersized (ctx : Ctx) (d : Dataset) (b : Nat)
    (es : List Element) (hb : 0 < b) (hbs : d.batch_size = (b : Int))
    (hlen : es.length < b) (hne : es ≠ [])
    (hdrop : d.drop_remainder = true) :
    getNext ctx d ⟨some (pureUp es)⟩ = (⟨none⟩, .ok ([], true)) := by
  unfold getNext
  dsimp only
  rw [toNat_batch d b hbs]
  rw [pullLoop_short b es [] hlen]
  simp only [List.nil_append]
  rw [if_neg hne]
  rw [if_pos ⟨by rw [hdrop], hlen⟩]

/-- `getNext` with an empty upstream remaining: end of sequence and the
handle is reset. -/
lemma getNext_emptyUpstream (ctx : Ctx) (d : Dataset) (b : Nat)
    (hb : 0 < b) (hbs : d.batch_size = (b : Int)) :
    getNext ctx d ⟨some (pureUp [])⟩ = (⟨none⟩, .ok ([], true)) := by
  unfold getNext
  dsimp only
  rw [toNat_batch d b hbs]
  rw [pullLoop_short b [] [] hb]
  simp

/-- Once exhausted, the iterator state never changes again. -/
lemma exhausted_state (ctxs : Nat → Ctx) (d : Dataset) :
    ∀ j, stateAt ctxs d ⟨none⟩ j = ⟨none⟩ := by
  intro j
  induction j with
  | zero => rfl
  | succ j ih =>
    show (getNext (ctxs j) d (stateAt ctxs d ⟨none⟩ j)).1 = ⟨none⟩
    rw [ih]
    rfl

/-- Once exhausted, every later `getNext` reports end of sequence. -/
lemma exhausted_out (ctxs : Nat → Ctx) (d : Dataset) (j : Nat) :
    outAt ctxs d ⟨none⟩ j = .ok ([], true) := by
  unfold outAt
  rw [exhausted_state]
  rfl

/-- Splitting a run at call `j0`. -/
lemma stateAt_add (ctxs : Nat → Ctx) (d : Dataset) (s0 : IterState) :
    ∀ (t j0 : Nat),
      stateAt ctxs d s0 (j0 + t) =
        stateAt (fun i => ctxs (j0 + i)) d (stateAt ctxs d s0 j0) t := by
  intro t
  induction t with
  | zero => intro j0; rfl
  | succ t ih =>
    intro j0
    show (getNext (ctxs (j0 + t)) d (stateAt ctxs d s0 (j0 + t))).1 = _
    rw [ih j0]
    rfl

/-- Splitting the outputs of a run at call `j0`. -/
lemma outAt_add (ctxs : Nat → Ctx) (d : Dataset) (s0 : IterState) (t j0 : Nat) :
    outAt ctxs d s0 (j0 + t) =
      outAt (fun i => ctxs (j0 + i)) d (stateAt ctxs d s0 j0) t := by
  unfold outAt
  rw [stateAt_add]

/-- C2: for a pure upstream of `n` uniformly shaped elements and batch
size `b > 0`: the first `⌊n/b⌋` calls each emit a full batch of exactly
`b` consecutive elements in upstream order; afterwards, if `n` divides
evenly or `drop_remainder` holds, every further call reports end of
sequence (with the trailing `n mod b` elements, already consumed, never
emitted); otherwise call `⌊n/b⌋` emits the partial batch of the trailing
`n mod b` elements and every later call reports end of sequence. -/
theorem batching_structure (ctxs : Nat → Ctx) (d : Dataset) (es : List Element)
    (b m : Nat) (sh : Nat → Shape)
    (hb : 0 < b) (hbs : d.batch_size = (b : Int))
    (harity : ∀ e ∈ es, List.length e = m)
    (halloc : ∀ j sp, (ctxs j).alloc_ok sp = true)
    (hsched : ∀ j c n, ((ctxs j).sched c n).Perm (List.range n))
    (hmatch : ∀ e ∈ es, ∀ c, (elemAt e c).shape = sh c) :
    (∀ j, j < es.length / b →
        ((es.drop (j * b)).take b).length = b ∧
        outAt ctxs d ⟨some (pureUp es)⟩ j =
          .ok (stackedBatch sh m ((es.drop (j * b)).take b), false)) ∧
    (es.length % b = 0 ∨ d.drop_remainder = true →
        ∀ j, es.length / b ≤ j →
          outAt ctxs d ⟨some (pureUp es)⟩ j = .ok ([], true)) ∧
    (es.length % b ≠ 0 → d.drop_remainder = false →
        (es.drop (es.length / b * b)).length = es.length % b ∧
        outAt ctxs d ⟨some (pureUp es)⟩ (es.length / b) =
          .ok (stackedBatch sh m (es.drop (es.length / b * b)), false) ∧
        (∀ j, es.length / b < j →
          outAt ctxs d ⟨some (pureUp es)⟩ j = .ok ([], true))) := by
  have hstate : ∀ j, j ≤ es.length / b →
      stateAt ctxs d ⟨some (pureUp es)⟩ j = ⟨some (pureUp (es.drop (j * b)))⟩ := by
    intro j
    induction j with
    | zero => intro _; simp [stateAt]
    | succ j ih =>
      intro hj
      have hj' : j ≤ es.length / b := by omega
      have hmul : (j + 1) * b ≤ es.length := (Nat.le_div_iff_mul_le hb).mp (by omega)
      rw [Nat.succ_mul] at hmul
      show (getNext (ctxs j) d (stateAt ctxs d ⟨some (pureUp es)⟩ j)).1 = _
      rw [ih hj']
      have hrem : b ≤ (es.drop (j * b)).length := by
        rw [List.length_drop]; omega
      rw [getNext_full (ctxs j) d b m sh (es.drop (j * b)) hb hbs hrem
        (fun e he => harity e (List.drop_subset _ _ he))
        (hsched j) (halloc j)
        (fun e he c => hmatch e (List.drop_subset _ _ he) c)]
      rw [List.drop_drop]
      rw [show j * b + b = (j + 1) * b from (Nat.succ_mul j b).symm]
  have hq := hstate (es.length / b) (le_refl _)
  have hmodlen : (es.drop (es.length / b * b)).length = es.length % b := by
    rw [List.length_drop]
    have := Nat.div_add_mod' es.length b
    omega
  refine ⟨?_, ?_, ?_⟩
  · intro j hj
    have hmul : (j + 1) * b ≤ es.length := (Nat.le_div_iff_mul_le hb).mp (by omega)
    rw [Nat.succ_mul] at hmul
    have hrem : b ≤ (es.drop (j * b)).length := by rw [List.length_drop]; omega
    constructor
    · rw [List.length_take, List.length_drop]; omega
    · unfold outAt
      rw [hstate j (by omega)]
      rw [getNext_full (ctxs j) d b m sh (es.drop (j * b)) hb hbs hrem
        (fun e he => harity e (List.drop_subset _ _ he))
        (hsched j) (halloc j)
        (fun e he c => hmatch e (List.drop_subset _ _ he) c)]
  · intro hcase j hj
    have hterm :
        getNext (ctxs (es.length / b)) d
          ⟨some (pureUp (es.drop (es.length / b * b)))⟩ = (⟨none⟩, .ok ([], true)) := by
      by_cases hm0 : es.length % b = 0
      · have hnil : es.drop (es.length / b * b) = [] := by
          rw [← List.length_eq_zero, hmodlen, hm0]
        rw [hnil]
        exact getNext_emptyUpstream _ d b hb hbs
      · have hdrop : d.drop_remainder = true := by
          rcases hcase with h | h
          · exact absurd h hm0
          · exact h
        refine getNext_dropUndersized _ d b _ hb hbs ?_ ?_ hdrop
        · rw [hmodlen]; exact Nat.mod_lt _ hb
        · intro hnil
          rw [hnil] at hmodlen
          simp at hmodlen
          exact hm0 hmodlen.symm
    have hq1 : stateAt ctxs d ⟨some (pureUp es)⟩ (es.length / b + 1) = ⟨none⟩ := by
      show (getNext (ctxs (es.length / b)) d
        (stateAt ctxs d ⟨some (pureUp es)⟩ (es.length / b))).1 = ⟨none⟩
      rw [hq, hterm]
    obtain ⟨t, rfl⟩ : ∃ t, j = es.length / b + t := ⟨j - es.length / b, by omega⟩
    cases t with
    | zero =>
      unfold outAt
      rw [Nat.add_zero, hq, hterm]
    | succ t =>
      rw [show es.length / b + (t + 1) = (es.length / b + 1) + t from by omega]
      rw [outAt_add ctxs d _ t (es.length / b + 1), hq1]
      exact exhausted_out _ d t
  · intro hm0 hdrop
    have hlt : (es.drop (es.length / b * b)).length < b := by
      rw [hmodlen]; exact Nat.mod_lt _ hb
    have hne : es.drop (es.length / b * b) ≠ [] := by
      intro hnil
      rw [hnil] at hmodlen
      simp at hmodlen
      exact hm0 hmodlen.symm
    have hpart :
        getNext (ctxs (es.length / b)) d
            ⟨some (pureUp (es.drop (es.length / b * b)))⟩ =
          (⟨none⟩, .ok (stackedBatch sh m (es.drop (es.length / b * b)), false)) :=
      getNext_partialBatch _ d b m sh _ hb hbs hlt hne hdrop
        (fun e he => harity e (List.drop_subset _ _ he))
        (hsched _) (halloc _)
        (fun e he c => hmatch e (List.drop_subset _ _ he) c)
    have hq1 : stateAt ctxs d ⟨some (pureUp es)⟩ (es.length / b + 1) = ⟨none⟩ := by
      show (getNext (ctxs (es.length / b)) d
        (stateAt ctxs d ⟨some (pureUp es)⟩ (es.length / b))).1 = ⟨none⟩
      rw [hq, hpart]
    refine ⟨hmodlen, ?_, ?_⟩
    · unfold outAt
      rw [hq, hpart]
    · intro j hj
      obtain ⟨t, rfl⟩ : ∃ t, j = (es.length / b + 1) + t :=
        ⟨j - (es.length / b + 1), by omega⟩
      rw [outAt_add ctxs d _ t (es.length / b + 1), hq1]
      exact exhausted_out _ d t

/-- A single-slot element holding one scalar value. -/
def elemOf (k : Int) : Element := [⟨[], [k]⟩]

/-- Seven single-slot scalar elements. -/
def sevenElems : List Element :=
  [elemOf 0, elemOf 1, elemOf 2, elemOf 3, elemOf 4, elemOf 5, elemOf 6]

/-- A context whose allocator always succeeds and whose worker pool runs
tasks in index order. -/
def ctxTrivial : Ctx := ⟨fun _ => true, fun _ n => List.range n⟩

/-- Witness for C2: seven upstream elements, batch size 3 with
`drop_remainder`: calls 0 and 1 emit full batches and calls 2 and 3 report
end of sequence (the trailing element is dropped). -/
theorem batching_structure_witness :
    outAt (fun _ => ctxTrivial) dsTenThreeDrop ⟨some (pureUp sevenElems)⟩ 0 =
      .ok (stackedBatch (fun _ => []) 1 ((sevenElems.drop (0 * 3)).take 3), false) ∧
    outAt (fun _ => ctxTrivial) dsTenThreeDrop ⟨some (pureUp sevenElems)⟩ 1 =
      .ok (stackedBatch (fun _ => []) 1 ((sevenElems.drop (1 * 3)).take 3), false) ∧
    outAt (fun _ => ctxTrivial) dsTenThreeDrop ⟨some (pureUp sevenElems)⟩ 2 =
      .ok ([], true) ∧
    outAt (fun _ => ctxTrivial) dsTenThreeDrop ⟨some (pureUp sevenElems)⟩ 3 =
      .ok ([], true) := by
  have hsh : ∀ e ∈ sevenElems, ∀ c, (elemAt e c).shape = (fun _ => ([] : Shape)) c := by
    intro e he c
    fin_cases he <;> cases c <;> rfl
  have H := batching_structure (fun _ => ctxTrivial) dsTenThreeDrop sevenElems 3 1
    (fun _ => []) (by decide) rfl (by decide)
    (fun _ _ => rfl) (fun _ _ n => List.Perm.refl _) hsh
  exact ⟨(H.1 0 (by decide)).2, (H.1 1 (by decide)).2,
    H.2.1 (Or.inr rfl) 2 (by decide), H.2.1 (Or.inr rfl) 3 (by decide)⟩

/-- If `getNext` on a present handle reported end of sequence, the pull
loop reset the handle. -/
lemma getNext_ok_true_none (ctx : Ctx) (d : Dataset) (up : Upstream)
    (bt : List Tensor) (h : (getNext ctx d ⟨some up⟩).2 = .ok (bt, true)) :
    (pullLoop d.batch_size.toNat up []).1 = none := by
  unfold getNext at h
  dsimp only at h
  rcases hp : pullLoop d.batch_size.toNat up [] with ⟨pimpl, r⟩
  rw [hp] at h
  rcases r with st | ⟨btl, eos⟩
  · simp at h
  · dsimp only at h
    by_cases hbt : btl = []
    · rw [if_pos hbt] at h
      dsimp only at h
      injection h with h3
      injection h3 with h4 h5
      have hn := pull_ok_true_none d.batch_size.toNat up [] btl
        (by rw [hp]; dsimp only; rw [h5])
      rw [hp] at hn
      exact hn
    · rw [if_neg hbt] at h
      by_cases hdc : d.drop_remainder = true ∧ btl.length < d.batch_size.toNat
      · rw [if_pos hdc] at h
        have hn := pull_ok_short_none d.batch_size.toNat up [] btl eos
          (by rw [hp]) (by simpa using hdc.2)
        rw [hp] at hn
        exact hn
      · rw [if_neg hdc] at h
        rcases h2 : assemble ctx d.parallel_copy btl with st | ts
        · rw [h2] at h; simp at h
        · rw [h2] at h; simp at h

/-- C6: once a `getNext` call reports end of sequence, the upstream handle
is absent, and from that state every later call leaves the state unchanged
and immediately reports end of sequence again. -/
theorem eos_terminal (ctx : Ctx) (d : Dataset) (s : IterState) (bt : List Tensor)
    (h : (getNext ctx d s).2 = .ok (bt, true)) :
    (getNext ctx d s).1.input_impl = none ∧
    ∀ (ctxs2 : Nat → Ctx) (d2 : Dataset) (j : Nat),
      stateAt ctxs2 d2 (getNext ctx d s).1 j = (getNext ctx d s).1 ∧
      outAt ctxs2 d2 (getNext ctx d s).1 j = .ok ([], true) := by
  have h1 : (getNext ctx d s).1.input_impl = none := by
    rcases s with ⟨impl⟩
    rcases impl with _ | up
    · rfl
    · rw [getNext_fst]
      exact getNext_ok_true_none ctx d up bt h
  have hs' : (getNext ctx d s).1 = ⟨none⟩ := by rw [← h1]
  refine ⟨h1, fun ctxs2 d2 j => ?_⟩
  rw [hs']
  exact ⟨exhausted_state ctxs2 d2 j, exhausted_out ctxs2 d2 j⟩

/-- Witness for C6: from an exhausted iterator, the eos-reporting call
leaves the handle absent and call 5 afterwards still reports end of
sequence. -/
theorem eos_terminal_witness :
    (getNext ctxTrivial dsTenThreeKeep ⟨none⟩).1.input_impl = none ∧
    outAt (fun _ => ctxTrivial) dsTenThreeKeep
      (getNext ctxTrivial dsTenThreeKeep ⟨none⟩).1 5 = .ok ([], true) := by
  have H := eos_terminal ctxTrivial dsTenThreeKeep ⟨none⟩ [] rfl
  exact ⟨H.1, (H.2 (fun _ => ctxTrivial) dsTenThreeKeep 5).2⟩

/-- C3: if within one assembled batch some element's value for slot `c`
has a shape different from element 0's (the earlier slots all uniform),
`getNext` fails with `InvalidArgument` whose message reports the component
index, the reference shape, the first offending element index and the
offending shape. -/
theorem shape_mismatch_invalid_argument (ctx : Ctx) (d : Dataset)
    (es : List Element) (b m c t : Nat)
    (hb : 0 < b) (hbs : d.batch_size = (b : Int)) (hlen : es.length = b)
    (harity : ∀ e ∈ es, List.length e = m) (hc : c < m)
    (halloc : ∀ sp, ctx.alloc_ok sp = true)
    (hprev : ∀ c', c' < c → ∀ e ∈ es,
      (elemAt e c').shape = (elemAt (es.headD []) c').shape)
    (ht : t < es.length)
    (hfirst : ∀ k, k < t →
      (elemAt (es.getD k []) c).shape = (elemAt (es.headD []) c).shape)
    (hmis : (elemAt (es.getD t []) c).shape ≠ (elemAt (es.headD []) c).shape) :
    (getNext ctx d ⟨some (pureUp es)⟩).2 =
      .error (.invalidArgument (mismatchMsg c ((elemAt (es.headD []) c).shape) t
        ((elemAt (es.getD t []) c).shape))) := by
  have hne : es ≠ [] := by
    intro h
    rw [h] at hlen
    simp at hlen
    omega
  unfold getNext
  dsimp only
  rw [toNat_batch d b hbs]
  rw [pullLoop_full b es [] (le_of_eq hlen.symm)]
  dsimp only
  simp only [List.nil_append]
  rw [← hlen, List.take_length]
  rw [if_neg hne]
  rw [if_neg (fun hh => absurd hh.2 (lt_irrefl _))]
  unfold assemble
  rw [harity (es.headD []) (headD_mem es [] hne)]
  have hasm : assembleFrom ctx d.parallel_copy es 0 m =
      .error (.invalidArgument (mismatchMsg c ((elemAt (es.headD []) c).shape) t
        ((elemAt (es.getD t []) c).shape))) := by
    refine assembleFrom_err ctx d.parallel_copy es _ m 0 c (Nat.zero_le c) (by omega)
      ?_ ?_
    · intro c' h1 h2
      exact assembleComponent_ok_exists ctx d.parallel_copy es c' (halloc _)
        (fun e he => hprev c' h2 e he)
    · exact assembleComponent_mismatch ctx d.parallel_copy es c t (halloc _) ht
        hfirst hmis
  rw [hasm]

/-- Three single-slot elements with per-slot shapes (2,3), (2,3), (2,4). -/
def shapeTriple : List Element :=
  [[⟨[2, 3], [0]⟩], [⟨[2, 3], [0]⟩], [⟨[2, 4], [0]⟩]]

/-- Witness for C3: the batch with per-slot shapes (2,3), (2,3), (2,4)
fails naming component 0, reference shape (2,3), index 2 and shape
(2,4). -/
theorem shape_mismatch_invalid_argument_witness :
    (getNext ctxTrivial dsTenThreeKeep ⟨some (pureUp shapeTriple)⟩).2 =
      .error (.invalidArgument (mismatchMsg 0 [2, 3] 2 [2, 4])) := by
  have H := shape_mismatch_invalid_argument ctxTrivial dsTenThreeKeep shapeTriple
    3 1 0 2 (by decide) rfl (by decide) (by decide) (by decide) (fun _ => rfl)
    (fun c' hc' => absurd hc' (Nat.not_lt_zero c')) (by decide) (by decide)
    (by decide)
  exact H

/-- A two-element single-slot batch whose second element's shape
differs. -/
def mismatchPair : List Element := [[⟨[2], [0, 0]⟩], [⟨[3], [0, 0, 0]⟩]]

/-- C4 (code bug): in parallel-copy mode the shape-mismatch error is
returned from inside the scheduling loop.  On this batch the loop has
already scheduled the copy task for element 0 (`scheduled = 1`) but
returns the `InvalidArgument` error without reaching `counter.Wait()`
(`waited = false`), leaving the scheduled task dangling — contrary to the
claim that every error path awaits all scheduled tasks for the slot. -/
theorem parallel_error_skips_join :
    parLoop 0 [2] mismatchPair 0 0 =
      (.error (.invalidArgument (mismatchMsg 0 [2] 1 [3])), 1, false) := by
  rfl

/-- Batch size 2 over `inputTen`, keeping the remainder. -/
def dsTwoKeep : Dataset := ⟨2, false, false, inputTen⟩

/-- C5: a failing `getNext` carries no batch with the error, and the
presence of the upstream handle is governed solely by upstream end of
sequence: after the call the handle is absent iff it was already absent or
the upstream held fewer than `batch_size` items, all successful elements
(the upstream itself signaled end of sequence during this call) — a
shape, allocation or upstream error never resets the handle. -/
theorem error_preserves_exhaustion (ctx : Ctx) (d : Dataset) (s : IterState)
    (e : Status) (herr : (getNext ctx d s).2 = .error e) :
    (getNext ctx d s).1.input_impl = none ↔
      (s.input_impl = none ∨
        ∃ up, s.input_impl = some up ∧ up.length < d.batch_size.toNat ∧
          ∀ x ∈ up, ∃ el, x = UpItem.elem el) := by
  rcases s with ⟨impl⟩
  rcases impl with _ | up
  · simp [getNext] at herr
  · rw [getNext_fst]
    show (pullLoop d.batch_size.toNat up []).1 = none ↔ _
    rw [pull_impl_none_iff]
    constructor
    · intro h
      exact Or.inr ⟨up, rfl, h.1, h.2⟩
    · rintro (h | ⟨up', hup', h1, h2⟩)
      · exact absurd h (by simp)
      · injection hup' with hup'
        subst hup'
        exact ⟨h1, h2⟩

/-- Witness for C5: on a full-batch shape mismatch the error is raised but
the handle remains present. -/
theorem error_preserves_exhaustion_witness :
    ¬((getNext ctxTrivial dsTwoKeep ⟨some (pureUp mismatchPair)⟩).1.input_impl
      = none) := by
  have H := error_preserves_exhaustion ctxTrivial dsTwoKeep
    ⟨some (pureUp mismatchPair)⟩
    (.invalidArgument (mismatchMsg 0 [2] 1 [3])) (by rfl)
  rw [H]
  rintro (h | ⟨up, hup, hlen, hall⟩)
  · simp at h
  · injection hup with hup
    subst hup
    exact absurd hlen (by decide)

/-- C7: `restore` after `save` rebuilds the iterator state exactly — the
sentinel is written precisely in the exhausted state, otherwise the
upstream's own checkpoint round-trips — so every subsequent pull result
coincides with that of the original iterator. -/
theorem save_restore_roundtrip (s : IterState) :
    restoreInternal (saveInternal s) = s ∧
    (saveInternal s = .inputImplEmpty ↔ s.input_impl = none) ∧
    ∀ (ctxs : Nat → Ctx) (d : Dataset) (j : Nat),
      outAt ctxs d (restoreInternal (saveInternal s)) j = outAt ctxs d s j := by
  have hrs : restoreInternal (saveInternal s) = s := by
    rcases s with ⟨impl⟩
    rcases impl with _ | up <;> rfl
  refine ⟨hrs, ?_, fun ctxs d j => by rw [hrs]⟩
  rcases s with ⟨impl⟩
  rcases impl with _ | up
  · simp [saveInternal]
  · simp [saveInternal]

/-- An upstream stub with dtypes and two slot shapes. -/
def inputShaped : DatasetBase := ⟨5, [2, 3], [[4, 5], [6]]⟩

/-- Batch size 3 over `inputShaped`, keeping the remainder. -/
def dsShapedKeep : Dataset := ⟨3, false, false, inputShaped⟩

/-- Batch size 3 over `inputShaped`, dropping the remainder. -/
def dsShapedDrop : Dataset := ⟨3, true, false, inputShaped⟩

/-- C9: the output dtypes are the upstream's unchanged, and each output
shape is the corresponding upstream slot shape prefixed with one outer
dimension — `batch_size` when `drop_remainder` holds, unknown (`-1`)
otherwise — the remaining dimensions unchanged. -/
theorem output_shapes_dtypes_spec (d : Dataset) :
    Dataset.output_dtypes d = d.input.out_dtypes ∧
    (Dataset.output_shapes d).length = d.input.out_shapes.length ∧
    ∀ c, c < d.input.out_shapes.length →
      (Dataset.output_shapes d).getD c [] =
        (if d.drop_remainder then d.batch_size else -1) ::
          d.input.out_shapes.getD c [] := by
  refine ⟨rfl, by simp [Dataset.output_shapes], fun c hc => ?_⟩
  unfold Dataset.output_shapes
  rw [getD_map_lt _ [] [] d.input.out_shapes c hc]
  cases hdr : d.drop_remainder <;> simp [concatenateShape]

/-- Witness for C9: with upstream slot shapes (4,5) and (6), keeping the
remainder gives outer dimension −1 and dropping it gives outer dimension
3; the dtypes pass through. -/
theorem output_shapes_dtypes_spec_witness :
    Dataset.output_dtypes dsShapedKeep = [2, 3] ∧
    (Dataset.output_shapes dsShapedKeep).getD 0 [] = [-1, 4, 5] ∧
    (Dataset.output_shapes dsShapedDrop).getD 1 [] = [3, 6] := by
  have HK := output_shapes_dtypes_spec dsShapedKeep
  have HD := output_shapes_dtypes_spec dsShapedDrop
  refine ⟨?_, ?_, ?_⟩
  · rw [HK.1]
    rfl
  · rw [HK.2.2 0 (by decide)]
    rfl
  · rw [HD.2.2 1 (by decide)]
    rfl

/-- C10: when `getNext` over a pure upstream fails (only shape or
allocation errors are possible there), the pulled elements stay consumed:
the resulting state is exactly that of an iterator positioned past them
(handle advanced by `batch_size` elements, or absent when fewer were
available), so all later pulls behave as if those elements never existed
and they appear in no later batch. -/
theorem failed_batch_elements_consumed (ctx : Ctx) (d : Dataset)
    (es : List Element) (e : Status)
    (herr : (getNext ctx d ⟨some (pureUp es)⟩).2 = .error e) :
    (getNext ctx d ⟨some (pureUp es)⟩).1 =
      (if d.batch_size.toNat ≤ es.length
        then (⟨some (pureUp (es.drop d.batch_size.toNat))⟩ : IterState)
        else ⟨none⟩) ∧
    ∀ (ctxs : Nat → Ctx) (d2 : Dataset) (j : Nat),
      outAt ctxs d2 (getNext ctx d ⟨some (pureUp es)⟩).1 j =
        outAt ctxs d2
          (if d.batch_size.toNat ≤ es.length
            then (⟨some (pureUp (es.drop d.batch_size.toNat))⟩ : IterState)
            else ⟨none⟩) j := by
  have h1 : (getNext ctx d ⟨some (pureUp es)⟩).1 =
      (if d.batch_size.toNat ≤ es.length
        then (⟨some (pureUp (es.drop d.batch_size.toNat))⟩ : IterState)
        else ⟨none⟩) := by
    rw [getNext_fst]
    rw [pull_pure_fst]
    by_cases hle : d.batch_size.toNat ≤ es.length <;> simp [hle]
  exact ⟨h1, fun ctxs d2 j => by rw [h1]⟩

/-- Witness for C10: after the failing mismatch call both upstream
elements are consumed (the handle sits at the empty rest) and the next
pull reports end of sequence. -/
theorem failed_batch_elements_consumed_witness :
    (getNext ctxTrivial dsTwoKeep ⟨some (pureUp mismatchPair)⟩).1 =
      ⟨some (pureUp (mismatchPair.drop 2))⟩ ∧
    outAt (fun _ => ctxTrivial) dsTwoKeep
      (getNext ctxTrivial dsTwoKeep ⟨some (pureUp mismatchPair)⟩).1 0 =
      .ok ([], true) := by
  have H := failed_batch_elements_consumed ctxTrivial dsTwoKeep mismatchPair
    (.invalidArgument (mismatchMsg 0 [2] 1 [3])) (by rfl)
  constructor
  · rw [H.1]
    rfl
  · rw [H.2 (fun _ => ctxTrivial) dsTwoKeep 0]
    rfl

/-- With all scheduled copies awaited (the worker pool's run order covers
every index), a component assembles to the same result in parallel and
sequential mode: on success the disjoint slice writes commute, and on a
mismatch both loops stop at the same index with the same message. -/
lemma assembleComponent_par_seq (ctx : Ctx) (elems : List Element) (c : Nat)
    (hsched : (ctx.sched c elems.length).Perm (List.range elems.length)) :
    assembleComponent ctx true elems c = assembleComponent ctx false elems c := by
  unfold assembleComponent
  cases hB : ctx.alloc_ok (elems.length :: (elemAt (elems.headD []) c).shape) with
  | false => rfl
  | true =>
    simp only [Bool.true_eq_false, if_false, if_true]
    have hfst := parLoop_fst c (elemAt (elems.headD []) c).shape elems 0 0
      (List.replicate elems.length [])
    rcases hseq : seqLoop c (elemAt (elems.headD []) c).shape elems 0
        (List.replicate elems.length []) with st | buf
    · rw [hseq] at hfst
      rcases hpar : parLoop c (elemAt (elems.headD []) c).shape elems 0 0
        with ⟨pf, ps, pw⟩
      rw [hpar] at hfst
      dsimp only at hfst
      subst hfst
      rfl
    · have hall : ∀ e ∈ elems, (elemAt e c).shape = (elemAt (elems.headD []) c).shape :=
        seqLoop_ok_all c _ elems 0 _ buf hseq
      rw [hseq] at hfst
      rcases hpar : parLoop c (elemAt (elems.headD []) c).shape elems 0 0
        with ⟨pf, ps, pw⟩
      rw [hpar] at hfst
      dsimp only at hfst
      subst hfst
      have hbuf : buf = elems.map (fun e => (elemAt e c).data) := by
        have h2 := seqLoop_ok c (elemAt (elems.headD []) c).shape elems [] hall
        simp only [List.length_nil, List.nil_append] at h2
        rw [hseq] at h2
        injection h2
      rw [execCopies_perm c elems _ hsched, hbuf]
      rfl

/-- The component loop agrees between the two modes. -/
lemma assembleFrom_par_seq (ctx : Ctx) (elems : List Element)
    (hsched : ∀ c, (ctx.sched c elems.length).Perm (List.range elems.length)) :
    ∀ (k c0 : Nat), assembleFrom ctx true elems c0 k = assembleFrom ctx false elems c0 k := by
  intro k
  induction k with
  | zero => intro c0; rfl
  | succ k ih =>
    intro c0
    simp only [assembleFrom]
    rw [assembleComponent_par_seq ctx elems c0 (hsched c0), ih (c0 + 1)]

/-- One `getNext` call agrees between the two modes: the pulling phase
ignores `parallel_copy_`, and the assembly agrees. -/
lemma getNext_par_seq (ctx : Ctx) (bsz : Int) (drop : Bool) (inp : DatasetBase)
    (s : IterState)
    (hsched : ∀ c n, (ctx.sched c n).Perm (List.range n)) :
    getNext ctx ⟨bsz, drop, true, inp⟩ s = getNext ctx ⟨bsz, drop, false, inp⟩ s := by
  rcases s with ⟨impl⟩
  rcases impl with _ | up
  · rfl
  · unfold getNext
    dsimp only
    rcases hp : pullLoop bsz.toNat up [] with ⟨pimpl, r⟩
    rcases r with st | ⟨bt, eos⟩
    · rfl
    · dsimp only
      by_cases hbt : bt = []
      · simp [hbt]
      · rw [if_neg hbt, if_neg hbt]
        by_cases hdc : drop = true ∧ bt.length < bsz.toNat
        · rw [if_pos hdc, if_pos hdc]
        · rw [if_neg hdc, if_neg hdc]
          unfold assemble
          rw [assembleFrom_par_seq ctx bt (fun c => hsched c bt.length) _ 0]

/-- C8: for the same context, upstream state and batch parameters, and
with every scheduled copy executed before the join (the run order covers
all indices, as `counter.Wait()` guarantees), the parallel-copy iterator
produces call by call exactly the same states and results — batches,
errors and end-of-sequence signals — as the sequential one. -/
theorem parallel_copy_equiv_sequential (ctxs : Nat → Ctx) (bsz : Int) (drop : Bool)
    (inp : DatasetBase) (s0 : IterState) (j : Nat)
    (hsched : ∀ i c n, ((ctxs i).sched c n).Perm (List.range n)) :
    stateAt ctxs ⟨bsz, drop, true, inp⟩ s0 j =
      stateAt ctxs ⟨bsz, drop, false, inp⟩ s0 j ∧
    outAt ctxs ⟨bsz, drop, true, inp⟩ s0 j =
      outAt ctxs ⟨bsz, drop, false, inp⟩ s0 j := by
  induction j with
  | zero =>
    refine ⟨rfl, ?_⟩
    unfold outAt
    exact congrArg Prod.snd
      (getNext_par_seq (ctxs 0) bsz drop inp s0 (hsched 0))
  | succ j ih =>
    have hst : stateAt ctxs ⟨bsz, drop, true, inp⟩ s0 (j + 1) =
        stateAt ctxs ⟨bsz, drop, false, inp⟩ s0 (j + 1) := by
      show (getNext (ctxs j) _ (stateAt ctxs _ s0 j)).1 =
        (getNext (ctxs j) _ (stateAt ctxs _ s0 j)).1
      rw [ih.1, getNext_par_seq (ctxs j) bsz drop inp _ (hsched j)]
    refine ⟨hst, ?_⟩
    unfold outAt
    rw [hst, getNext_par_seq (ctxs (j + 1)) bsz drop inp _ (hsched (j + 1))]

/-- Witness for C8: on seven concrete elements with batch size 3, call 0
of the parallel iterator equals call 0 of the sequential one. -/
theorem parallel_copy_equiv_sequential_witness :
    outAt (fun _ => ctxTrivial) ⟨3, false, true, inputTen⟩
        ⟨some (pureUp sevenElems)⟩ 0 =
      outAt (fun _ => ctxTrivial) ⟨3, false, false, inputTen⟩
        ⟨some (pureUp sevenElems)⟩ 0 :=
  (parallel_copy_equiv_sequential (fun _ => ctxTrivial) 3 false inputTen
    ⟨some (pureUp sevenElems)⟩ 0 (fun _ _ _ => List.Perm.refl _)).2

end BatchDataset
